import Mathlib

/-!
Verification of the Chapter 20 (one-sided commitment) economy from
`RMT/Chapter20/Chp20Specification.py`.

The Python module builds model primitives (`get_primitives`), bundles them in
`Chp20_Sec3_Economy`, solves the equilibrium contract by a closed-form backward
recursion (`solve`), and simulates paths (`simulate`) using the index-ratchet
repair `fix_indexes`.  Real numbers stand in for floating point; the random
draw stream of `qe.DiscreteRV.draw` is passed explicitly as a function
`ℕ → ℕ`.
-/

namespace RMT20

/-- Scalar parameters of `get_primitives` / `Chp20_Sec3_Economy.__init__`:
`beta, gamma, ymin, ymax, ny, lamb`. -/
structure Params where
  beta : ℝ
  gamma : ℝ
  ymin : ℝ
  ymax : ℝ
  ny : ℕ
  lamb : ℝ

noncomputable section

/-- `ybar = np.linspace(ymin, ymax, ny)`: the `s`-th grid point
`ymin + (ymax - ymin) * s / (ny - 1)`. -/
def ybar (p : Params) (s : ℕ) : ℝ :=
  p.ymin + (p.ymax - p.ymin) * s / ((p.ny : ℝ) - 1)

/-- `pi_y = (1-lamb)/(1-lamb**ny) * lamb**np.arange(ny)`. -/
def pi_y (p : Params) (s : ℕ) : ℝ :=
  (1 - p.lamb) / (1 - p.lamb ^ p.ny) * p.lamb ^ s

/-- `u = lambda c: np.exp(-gamma*c)/(-gamma)`. -/
def u (p : Params) (c : ℝ) : ℝ := Real.exp (-p.gamma * c) / (-p.gamma)

/-- `uinv = lambda _u: np.log(-gamma*_u) / (-gamma)`. -/
def uinv (p : Params) (x : ℝ) : ℝ := Real.log (-p.gamma * x) / (-p.gamma)

/-- `up = lambda c: np.exp(-gamma*c)`. -/
def up (p : Params) (c : ℝ) : ℝ := Real.exp (-p.gamma * c)

/-- `upinv = lambda _up: np.log(_up) / (-gamma)`. -/
def upinv (p : Params) (x : ℝ) : ℝ := Real.log x / (-p.gamma)

/-- `self.v_aut = (1/(1-beta)) * np.dot(self.u(self.ybar), self.pi_y)`. -/
def v_aut (p : Params) : ℝ :=
  (1 / (1 - p.beta)) * ∑ s ∈ Finset.range p.ny, u p (ybar p s) * pi_y p s

/-- `self.c_complete_markets = np.dot(self.pi_y, self.ybar)`. -/
def c_complete_markets (p : Params) : ℝ :=
  ∑ s ∈ Finset.range p.ny, pi_y p s * ybar p s

/-- `v(self, c, w) = self.u(c) + self.beta*w`. -/
def v (p : Params) (c w : ℝ) : ℝ := u p c + p.beta * w

/-- `participation_constraint(self, c, w, s)`: `v(c, w) >= v(ybar[s], v_aut)`. -/
def participation_constraint (p : Params) (c w : ℝ) (s : ℕ) : Prop :=
  v p c w ≥ v p (ybar p s) (v_aut p)

end

/-! ### The ratchet repair `fix_indexes`

The Python loop keeps `prev_max` (initialised to 0) and writes
`fixed[t] = prev_max` when `realized[t] <= prev_max`, otherwise
`fixed[t] = realized[t]` updating `prev_max`.  We model the loop as a list
recursion carrying `prev_max`. -/

/-- The loop body of `fix_indexes`, carrying the running `prev_max`. -/
def fixAux (prevMax : ℕ) : List ℕ → List ℕ
  | [] => []
  | cind :: rest =>
      if cind ≤ prevMax then prevMax :: fixAux prevMax rest
      else cind :: fixAux cind rest

/-- `fix_indexes(nstates, T, realized, fixed)` fills `fixed` from `realized`
starting from `prev_max = 0` (`nstates` and `T` only shape the buffers). -/
def fix_indexes (realized : List ℕ) : List ℕ := fixAux 0 realized

noncomputable section

/-! ### The `solve` backward recursion

`solve` fills `l1`/`g1` from the top state `ny-1` down to 0.  We model the
partially filled arrays as a list: `solveList p k` holds the pairs
`(g1[s], l1[s])` for states `s = ny-1-k, …, ny-1`, lowest state first, so
the head of `solveList p (ny-1-s)` is the pair for state `s`. -/

/-- `v_exit = v(ybar[s], v_aut)` in the loop body of `solve`. -/
def v_exit (p : Params) (s : ℕ) : ℝ := v p (ybar p s) (v_aut p)

/-- The one-period value `v(g1[j], l1[j])` of a solved pair. -/
def vStay (p : Params) (gl : ℝ × ℝ) : ℝ := v p gl.1 gl.2

/-- `jp1_S_terms = np.dot(pi_y[s+1:], v(g1[s+1:], l1[s+1:]))`: the list `gls`
holds the already-solved pairs for the consecutive states `s0, s0+1, …`. -/
def jp1Sum (p : Params) : ℕ → List (ℝ × ℝ) → ℝ
  | _, [] => 0
  | s0, gl :: rest => pi_y p s0 * vStay p gl + jp1Sum p (s0 + 1) rest

/-- `pi1j = np.sum(pi_y[:s+1])`. -/
def pi1j (p : Params) (s : ℕ) : ℝ := ∑ j ∈ Finset.range (s + 1), pi_y p j

/-- The backward loop of `solve`.  `solveList p 0` is the terminal step
`l1[-1] = v(ybar[-1], v_aut)`, `g1[-1] = uinv((1-beta)*l1[-1])`; step `k+1`
prepends the closed-form pair for state `s = ny-1-(k+1)`:
`l1[s] = pi1j*v_exit + jp1_S_terms` and
`g1[s] = uinv((l1[s]*(1-beta*pi1j) - jp1_S_terms)/pi1j)`. -/
def solveList (p : Params) : ℕ → List (ℝ × ℝ)
  | 0 =>
      [(uinv p ((1 - p.beta) * v p (ybar p (p.ny - 1)) (v_aut p)),
        v p (ybar p (p.ny - 1)) (v_aut p))]
  | k + 1 =>
      let rest := solveList p k
      let s := p.ny - 1 - (k + 1)
      let jp1 := jp1Sum p (s + 1) rest
      let l1s := pi1j p s * v_exit p s + jp1
      (uinv p ((l1s * (1 - p.beta * pi1j p s) - jp1) / pi1j p s), l1s) :: rest

/-- Consumption policy `g1[s]` produced by `solve`. -/
def g1 (p : Params) (s : ℕ) : ℝ := ((solveList p (p.ny - 1 - s)).headD (0, 0)).1

/-- Continuation-value policy `l1[s]` produced by `solve`. -/
def l1 (p : Params) (s : ℕ) : ℝ := ((solveList p (p.ny - 1 - s)).headD (0, 0)).2

/-- The value of `jp1_S_terms` at loop iteration `s` (for `s + 1 < ny`). -/
def jp1S (p : Params) (s : ℕ) : ℝ := jp1Sum p (s + 1) (solveList p (p.ny - 2 - s))

/-- The argument passed to `uinv` when `solve` computes `g1[s]`, `s + 1 < ny`. -/
def uinvArg (p : Params) (s : ℕ) : ℝ :=
  (l1 p s * (1 - p.beta * pi1j p s) - jp1S p s) / pi1j p s

/-! ### The `Chp20_Sec3_Economy` constructor and `simulate` -/

/-- The state stored on `self` by `Chp20_Sec3_Economy.__init__`
(the utility callables close over `gamma` and are recovered from it). -/
structure Model where
  beta : ℝ
  gamma : ℝ
  ybar : List ℝ
  pi_y : List ℝ
  v_aut : ℝ
  c_complete_markets : ℝ

/-- `Chp20_Sec3_Economy.__init__`, embedded as a fallible constructor so that
rejection of a parameter set is expressible.  The Python constructor performs
no validation and none of its numpy operations raises (division by zero and
logs of non-positive numbers yield inf/nan with a warning), so every parameter
set maps to `some` model. -/
def mkEconomy (p : Params) : Option Model :=
  some
    { beta := p.beta
      gamma := p.gamma
      ybar := (List.range p.ny).map (ybar p)
      pi_y := (List.range p.ny).map (pi_y p)
      v_aut := v_aut p
      c_complete_markets := c_complete_markets p }

/-- `simulate(self, g1, l1, T)`: draw `T` indices from the stream, ratchet
them with `fix_indexes`, and read off `c = g1[pol]`, `w = l1[pol]`,
`y = ybar[y_indexes]`. -/
def simulate (p : Params) (g1pol l1pol : ℕ → ℝ) (T : ℕ) (draws : ℕ → ℕ) :
    List ℝ × List ℝ × List ℝ :=
  let y_indexes := (List.range T).map draws
  let pol_indexes := fix_indexes y_indexes
  (pol_indexes.map g1pol, pol_indexes.map l1pol, y_indexes.map (ybar p))

/-- `simulate` with the mutable environment made explicit: the method reads
`self` and the policy arrays, writes only the local buffer `pol_indexes`, and
hands the environment back with its outputs. -/
def simulateSt (m : Model) (g1pol l1pol : ℕ → ℝ) (T : ℕ) (draws : ℕ → ℕ) :
    (Model × (ℕ → ℝ) × (ℕ → ℝ)) × (List ℝ × List ℝ × List ℝ) :=
  let y_indexes := (List.range T).map draws
  let pol_indexes := fix_indexes y_indexes
  ((m, g1pol, l1pol),
    (pol_indexes.map g1pol, pol_indexes.map l1pol,
      y_indexes.map (fun t => m.ybar.getD t 0)))

/-- The default parameter set of `Chp20_Sec3_Economy.__init__` scaled down to
a two-state grid on `[0, 1]` with `beta = 1/2`, `gamma = 1`, `lamb = 1/2`;
used to instantiate the general theorems at a concrete economy. -/
def pW : Params := ⟨1/2, 1, 0, 1, 2, 1/2⟩

end

/-! ## Lemmas about `fix_indexes` -/

theorem fixAux_length (pm : ℕ) (l : List ℕ) : (fixAux pm l).length = l.length := by
  induction l generalizing pm with
  | nil => rfl
  | cons c rest ih =>
      simp only [fixAux]
      split <;> simp [ih]

theorem fixAux_getD (l : List ℕ) (pm t : ℕ) (ht : t < l.length) :
    (fixAux pm l).getD t 0 = (l.take (t + 1)).foldl max pm := by
  induction l generalizing pm t with
  | nil => simp at ht
  | cons c rest ih =>
      cases t with
      | zero =>
          simp only [fixAux, List.take, List.foldl]
          split
          · simp only [List.getD_cons_zero]
            omega
          · simp only [List.getD_cons_zero]
            omega
      | succ t =>
          have ht' : t < rest.length := by simpa using ht
          have hmax : (fixAux pm (c :: rest)).getD (t + 1) 0 =
              (fixAux (max pm c) rest).getD t 0 := by
            simp only [fixAux]
            split
            · have : max pm c = pm := by omega
              rw [this]
              simp [List.getD_cons_succ]
            · have : max pm c = c := by omega
              rw [this]
              simp [List.getD_cons_succ]
          rw [hmax, ih _ _ ht']
          simp [List.foldl]

theorem foldl_max_init_mono {a b : ℕ} (l : List ℕ) (h : a ≤ b) :
    l.foldl max a ≤ l.foldl max b := by
  induction l generalizing a b with
  | nil => simpa
  | cons c rest ih => exact ih (by omega)

theorem le_foldl_max (a : ℕ) (l : List ℕ) : a ≤ l.foldl max a := by
  induction l generalizing a with
  | nil => simp
  | cons c rest ih => exact le_trans (le_max_left a c) (ih _)

theorem foldl_max_take_mono (l : List ℕ) (a : ℕ) {t t' : ℕ} (h : t ≤ t') :
    (l.take t).foldl max a ≤ (l.take t').foldl max a := by
  have hsplit : l.take t' = l.take t ++ (l.drop t).take (t' - t) := by
    rw [show t' = t + (t' - t) by omega, List.take_add]
    simp
  rw [hsplit, List.foldl_append]
  exact le_foldl_max _ _

/-! ## Lemmas about the solver -/

theorem l1_top (p : Params) : l1 p (p.ny - 1) = v p (ybar p (p.ny - 1)) (v_aut p) := by
  simp [l1, solveList]

theorem g1_top (p : Params) : g1 p (p.ny - 1) = uinv p ((1 - p.beta) * l1 p (p.ny - 1)) := by
  simp [g1, l1_top, l1, solveList]

theorem solveList_step (p : Params) (s : ℕ) (hs : s + 1 < p.ny) :
    solveList p (p.ny - 1 - s) =
      (uinv p (((pi1j p s * v_exit p s + jp1S p s) * (1 - p.beta * pi1j p s) - jp1S p s)
          / pi1j p s),
        pi1j p s * v_exit p s + jp1S p s) :: solveList p (p.ny - 2 - s) := by
  have hk : p.ny - 1 - s = (p.ny - 2 - s) + 1 := by omega
  rw [hk, solveList]
  have hstate : p.ny - 1 - (p.ny - 2 - s + 1) = s := by omega
  simp only [hstate, jp1S]

theorem l1_eq (p : Params) (s : ℕ) (hs : s + 1 < p.ny) :
    l1 p s = pi1j p s * v_exit p s + jp1S p s := by
  rw [l1, solveList_step p s hs]
  rfl

theorem g1_eq (p : Params) (s : ℕ) (hs : s + 1 < p.ny) :
    g1 p s = uinv p (uinvArg p s) := by
  rw [g1, solveList_step p s hs, uinvArg, l1_eq p s hs]
  rfl

/-- `u (uinv x) = x` on `uinv`'s domain (where `-gamma * x` is positive). -/
theorem u_uinv (p : Params) (x : ℝ) (hγ : p.gamma ≠ 0) (hx : 0 < -p.gamma * x) :
    u p (uinv p x) = x := by
  have hγ' : -p.gamma ≠ 0 := neg_ne_zero.mpr hγ
  rw [u, uinv, mul_div_cancel₀ _ hγ', Real.exp_log hx, mul_div_cancel_left₀ _ hγ']

theorem pi_y_pos (p : Params) (hl0 : 0 < p.lamb) (hl1 : p.lamb < 1) (hny : 1 ≤ p.ny)
    (s : ℕ) : 0 < pi_y p s := by
  have hpow : p.lamb ^ p.ny < 1 := pow_lt_one₀ hl0.le hl1 (by omega)
  exact mul_pos (div_pos (by linarith) (by linarith)) (pow_pos hl0 s)

theorem pi1j_pos (p : Params) (hl0 : 0 < p.lamb) (hl1 : p.lamb < 1) (hny : 1 ≤ p.ny)
    (s : ℕ) : 0 < pi1j p s := by
  refine Finset.sum_pos (fun j _ => pi_y_pos p hl0 hl1 hny j) ?_
  exact Finset.nonempty_range_succ

/-- Core cancellation: on `uinv`'s domain the stay value at state `s < ny - 1`
collapses to the exit value `v(ybar[s], v_aut)`. -/
theorem stay_eq_exit (p : Params) (s : ℕ) (hs : s + 1 < p.ny) (hγ : p.gamma ≠ 0)
    (hpi : pi1j p s ≠ 0) (hdom : 0 < -p.gamma * uinvArg p s) :
    v p (g1 p s) (l1 p s) = v_exit p s := by
  rw [v, g1_eq p s hs, u_uinv p _ hγ hdom, uinvArg, l1_eq p s hs]
  field_simp
  ring

/-- Terminal cancellation: on `uinv`'s domain the stay value at the top state
equals `l1[ny-1]` itself. -/
theorem stay_top (p : Params) (hγ : p.gamma ≠ 0)
    (hdom : 0 < -p.gamma * ((1 - p.beta) * l1 p (p.ny - 1))) :
    v p (g1 p (p.ny - 1)) (l1 p (p.ny - 1)) = l1 p (p.ny - 1) := by
  rw [v, g1_top, u_uinv p _ hγ hdom]
  ring

/-! ## Concrete evaluation of the two-state economy `pW` -/

theorem ybar_pW_zero : ybar pW 0 = 0 := by norm_num [ybar, pW]

theorem ybar_pW_one : ybar pW 1 = 1 := by norm_num [ybar, pW]

theorem pi_y_pW_zero : pi_y pW 0 = 2/3 := by norm_num [pi_y, pW]

theorem pi_y_pW_one : pi_y pW 1 = 1/3 := by norm_num [pi_y, pW]

theorem vaut_pW : v_aut pW = -4/3 - 2/3 * Real.exp (-1) := by
  rw [v_aut, show pW.ny = 2 from rfl, Finset.sum_range_succ, Finset.sum_range_one,
    ybar_pW_zero, ybar_pW_one, pi_y_pW_zero, pi_y_pW_one]
  simp only [u, pW]
  norm_num [Real.exp_zero]
  ring

theorem l1_pW_top : l1 pW 1 = -(4/3) * Real.exp (-1) - 2/3 := by
  have h := l1_top pW
  rw [show pW.ny - 1 = 1 from rfl] at h
  rw [h, v, ybar_pW_one, vaut_pW]
  simp only [u, pW]
  norm_num
  ring

theorem l1_pW_top_neg : l1 pW 1 < 0 := by
  rw [l1_pW_top]
  nlinarith [Real.exp_pos (-1)]

theorem pi1j_pW_zero : pi1j pW 0 = 2/3 := by
  rw [pi1j, Finset.sum_range_one, pi_y_pW_zero]

theorem jp1S_pW_zero : jp1S pW 0 = 1/3 * l1 pW 1 := by
  have hsl : solveList pW 0 = [(g1 pW 1, l1 pW 1)] := by
    simp [g1, l1, show pW.ny - 1 - 1 = 0 from rfl, solveList]
  have hstay : u pW (g1 pW 1) + pW.beta * l1 pW 1 = l1 pW 1 := by
    have hdom : 0 < -pW.gamma * ((1 - pW.beta) * l1 pW (pW.ny - 1)) := by
      rw [show pW.ny - 1 = 1 from rfl]
      show 0 < -(1 : ℝ) * ((1 - 1/2) * l1 pW 1)
      nlinarith [l1_pW_top_neg]
    have h := stay_top pW (by norm_num [pW]) hdom
    rw [show pW.ny - 1 = 1 from rfl] at h
    rw [v] at h
    exact h
  rw [jp1S, show pW.ny - 2 - 0 = 0 from rfl, hsl, jp1Sum, jp1Sum, vStay, v]
  rw [pi_y_pW_one]
  simp only []
  rw [hstay]
  ring

theorem v_exit_pW_zero : v_exit pW 0 = -5/3 - 1/3 * Real.exp (-1) := by
  rw [v_exit, v, ybar_pW_zero, vaut_pW]
  simp only [u, pW]
  norm_num [Real.exp_zero]
  ring

theorem uinvArg_pW_zero : uinvArg pW 0 = -1 := by
  have hl1 : l1 pW 0 = pi1j pW 0 * v_exit pW 0 + jp1S pW 0 :=
    l1_eq pW 0 (by norm_num [pW])
  rw [uinvArg, hl1, pi1j_pW_zero, v_exit_pW_zero, jp1S_pW_zero, l1_pW_top]
  simp only [pW]
  norm_num
  ring

/-! ## Claims -/

/-- C1: For every horizon `T > 0` and every sequence of drawn income-state
indices (each in `[0, ny)`), the effective-index sequence produced by
`fix_indexes` satisfies `effective[t] = max(drawn[0..t])` for all `t`, and is
therefore non-decreasing in `t`. -/
theorem fix_indexes_running_max (ny : ℕ) (l : List ℕ) (_hb : ∀ x ∈ l, x < ny)
    (t t' : ℕ) (ht : t < l.length) (ht' : t' < l.length) (htt' : t ≤ t') :
    (fix_indexes l).getD t 0 = (l.take (t + 1)).foldl max 0 ∧
    (fix_indexes l).getD t 0 ≤ (fix_indexes l).getD t' 0 := by
  refine ⟨fixAux_getD l 0 t ht, ?_⟩
  rw [fix_indexes, fixAux_getD l 0 t ht, fixAux_getD l 0 t' ht']
  exact foldl_max_take_mono l 0 (by omega)

theorem fix_indexes_running_max_witness :
    (fix_indexes [2, 0, 3]).getD 0 0 = ([2, 0, 3].take 1).foldl max 0 ∧
    (fix_indexes [2, 0, 3]).getD 0 0 ≤ (fix_indexes [2, 0, 3]).getD 2 0 :=
  fix_indexes_running_max 4 [2, 0, 3] (by decide) 0 2 (by decide) (by decide) (by decide)

/-- C2: For the policies `(g1, l1)` returned by `solve`, at every state
`s < ny - 1` the one-period value of staying weakly dominates exit:
`v(g1[s], l1[s]) ≥ v(ybar[s], v_aut)` (on `uinv`'s domain, in the valid
parameter regime `gamma ≠ 0`, `lamb ∈ (0,1)`). -/
theorem solve_participation_holds (p : Params) (s : ℕ) (hs : s + 1 < p.ny)
    (hγ : p.gamma ≠ 0) (hl0 : 0 < p.lamb) (hl1 : p.lamb < 1)
    (hdom : 0 < -p.gamma * uinvArg p s) :
    v p (g1 p s) (l1 p s) ≥ v p (ybar p s) (v_aut p) := by
  have hpi := pi1j_pos p hl0 hl1 (by omega) s
  have h := stay_eq_exit p s hs hγ hpi.ne' hdom
  rw [h, v_exit]

theorem solve_participation_holds_witness :
    v pW (g1 pW 0) (l1 pW 0) ≥ v pW (ybar pW 0) (v_aut pW) :=
  solve_participation_holds pW 0 (by norm_num [pW]) (by norm_num [pW])
    (by norm_num [pW]) (by norm_num [pW])
    (by rw [uinvArg_pW_zero]; norm_num [pW])

/-- C3: At the terminal state `s = ny - 1` the agent is exactly indifferent:
`v(g1[ny-1], l1[ny-1]) = l1[ny-1]`, where `l1[ny-1] = v(ybar[ny-1], v_aut)`
and `g1[ny-1] = uinv((1-beta)*l1[ny-1])` (on `uinv`'s domain). -/
theorem solve_terminal_indifference (p : Params) (hγ : p.gamma ≠ 0)
    (hdom : 0 < -p.gamma * ((1 - p.beta) * l1 p (p.ny - 1))) :
    v p (g1 p (p.ny - 1)) (l1 p (p.ny - 1)) = l1 p (p.ny - 1) ∧
    l1 p (p.ny - 1) = v p (ybar p (p.ny - 1)) (v_aut p) ∧
    g1 p (p.ny - 1) = uinv p ((1 - p.beta) * l1 p (p.ny - 1)) :=
  ⟨stay_top p hγ hdom, l1_top p, g1_top p⟩

theorem solve_terminal_indifference_witness :
    v pW (g1 pW (pW.ny - 1)) (l1 pW (pW.ny - 1)) = l1 pW (pW.ny - 1) ∧
    l1 pW (pW.ny - 1) = v pW (ybar pW (pW.ny - 1)) (v_aut pW) ∧
    g1 pW (pW.ny - 1) = uinv pW ((1 - pW.beta) * l1 pW (pW.ny - 1)) :=
  solve_terminal_indifference pW (by norm_num [pW])
    (by
      rw [show pW.ny - 1 = 1 from rfl]
      show 0 < -(1 : ℝ) * ((1 - 1/2) * l1 pW 1)
      nlinarith [l1_pW_top_neg])

/-- C4: The utility transforms built by `get_primitives` are mutually inverse
for `gamma ≠ 0`: `uinv (u c) = c` and `upinv (up c) = c` (exactly, over ℝ). -/
theorem utility_transforms_inverse (p : Params) (hγ : p.gamma ≠ 0) (c : ℝ) :
    uinv p (u p c) = c ∧ upinv p (up p c) = c := by
  have hγ' : -p.gamma ≠ 0 := neg_ne_zero.mpr hγ
  constructor
  · rw [uinv, u, mul_div_cancel₀ _ hγ', Real.log_exp, mul_div_cancel_left₀ _ hγ']
  · rw [upinv, up, Real.log_exp, mul_div_cancel_left₀ _ hγ']

theorem utility_transforms_inverse_witness :
    uinv pW (u pW 0) = 0 ∧ upinv pW (up pW 0) = 0 :=
  utility_transforms_inverse pW (by norm_num [pW]) 0

/-- C5: For valid parameters (`ymin < ymax`, `ny ≥ 2`, `lamb ∈ (0,1)`) the
primitives satisfy: `ybar` is strictly increasing, every `pi_y[s]` is
strictly positive, and the `pi_y` entries sum to exactly 1. -/
theorem primitives_invariants (p : Params) (hy : p.ymin < p.ymax) (hny : 2 ≤ p.ny)
    (hl0 : 0 < p.lamb) (hl1 : p.lamb < 1) :
    (∀ s t, s < t → t < p.ny → ybar p s < ybar p t) ∧
    (∀ s, 0 < pi_y p s) ∧
    ∑ s ∈ Finset.range p.ny, pi_y p s = 1 := by
  refine ⟨?_, fun s => pi_y_pos p hl0 hl1 (by omega) s, ?_⟩
  · intro s t hst htn
    rw [ybar, ybar]
    have hc : (0 : ℝ) < (p.ny : ℝ) - 1 := by
      have h2 : (2 : ℝ) ≤ (p.ny : ℝ) := by exact_mod_cast hny
      linarith
    have hA : (0 : ℝ) < p.ymax - p.ymin := by linarith
    have hst' : (s : ℝ) < (t : ℝ) := by exact_mod_cast hst
    have hdiv : (p.ymax - p.ymin) * (s : ℝ) / ((p.ny : ℝ) - 1) <
        (p.ymax - p.ymin) * (t : ℝ) / ((p.ny : ℝ) - 1) := by
      rw [div_lt_div_iff₀ hc hc]
      have := mul_lt_mul_of_pos_right (mul_lt_mul_of_pos_left hst' hA) hc
      linarith
    linarith
  · have hlam1 : p.lamb ≠ 1 := ne_of_lt hl1
    have hpow : p.lamb ^ p.ny < 1 := pow_lt_one₀ hl0.le hl1 (by omega)
    have hpow' : 1 - p.lamb ^ p.ny ≠ 0 := by linarith
    have hlam1' : p.lamb - 1 ≠ 0 := sub_ne_zero.mpr hlam1
    simp only [pi_y]
    rw [← Finset.mul_sum, geom_sum_eq hlam1]
    field_simp
    ring

theorem primitives_invariants_witness :
    (∀ s t, s < t → t < pW.ny → ybar pW s < ybar pW t) ∧
    (∀ s, 0 < pi_y pW s) ∧
    ∑ s ∈ Finset.range pW.ny, pi_y pW s = 1 :=
  primitives_invariants pW (by norm_num [pW]) (by norm_num [pW])
    (by norm_num [pW]) (by norm_num [pW])

/-- C6 (counterexample): the constructor accepts `ymin = 2 > 1 = ymax` with
`ny = 2` — an invalid parameter set per the spec — and returns a model rather
than failing. -/
theorem mkEconomy_accepts_invalid_params :
    (mkEconomy ⟨92/100, 2/10, 2, 1, 2, 1/2⟩).isSome = true := rfl

/-- C6 (amended): `Chp20_Sec3_Economy.__init__` performs no parameter
validation: construction succeeds for every parameter set, and the stored
scalars are taken over unchanged (never clamped). -/
theorem mkEconomy_never_fails (p : Params) :
    ∃ m, mkEconomy p = some m ∧ m.beta = p.beta ∧ m.gamma = p.gamma :=
  ⟨_, rfl, rfl, rfl⟩

/-- C7 (counterexample): `simulate` called with `T = 0` returns normally
(three empty sequences) instead of signalling a precondition error. -/
theorem simulate_T_zero_returns_normally :
    simulate pW (fun _ => 0) (fun _ => 0) 0 (fun _ => 0) = ([], [], []) := rfl

/-- C7 (amended): for every `T ≥ 0` (including `T = 0`), `simulate` returns
three sequences `(c, w, y)` each of length exactly `T`. -/
theorem simulate_output_lengths (p : Params) (g1pol l1pol : ℕ → ℝ) (T : ℕ)
    (draws : ℕ → ℕ) :
    (simulate p g1pol l1pol T draws).1.length = T ∧
    (simulate p g1pol l1pol T draws).2.1.length = T ∧
    (simulate p g1pol l1pol T draws).2.2.length = T := by
  refine ⟨?_, ?_, ?_⟩ <;>
    simp [simulate, fix_indexes, fixAux_length]

/-- C8: `simulate` is deterministic in its random stream: two calls with
identical policies, horizon and draw stream (agreeing on the first `T`
draws) produce identical `(c, w, y)` output sequences. -/
theorem simulate_deterministic (p : Params) (g1pol l1pol : ℕ → ℝ) (T : ℕ)
    (d₁ d₂ : ℕ → ℕ) (h : ∀ t < T, d₁ t = d₂ t) :
    simulate p g1pol l1pol T d₁ = simulate p g1pol l1pol T d₂ := by
  have hmap : (List.range T).map d₁ = (List.range T).map d₂ :=
    List.map_congr_left fun a ha => h a (List.mem_range.mp ha)
  simp only [simulate, hmap]

theorem simulate_deterministic_witness :
    simulate pW (fun _ => 0) (fun _ => 0) 1 (fun _ => 0) =
    simulate pW (fun _ => 0) (fun _ => 0) 1 (fun t => t) :=
  simulate_deterministic pW (fun _ => 0) (fun _ => 0) 1 (fun _ => 0) (fun t => t)
    (by decide)

/-- C9: `simulate` does not mutate its inputs or the model: with the method's
environment threaded explicitly, the model and the policy arrays come back
unchanged — only the local `pol_indexes` buffer is written. -/
theorem simulate_no_mutation (m : Model) (g1pol l1pol : ℕ → ℝ) (T : ℕ)
    (draws : ℕ → ℕ) :
    (simulateSt m g1pol l1pol T draws).1.1 = m ∧
    (simulateSt m g1pol l1pol T draws).1.2.1 = g1pol ∧
    (simulateSt m g1pol l1pol T draws).1.2.2 = l1pol :=
  ⟨rfl, rfl, rfl⟩

/-- C10: Exact indifference holds at every state, not only the terminal one:
for every `s ≤ ny - 1`, `v(g1[s], l1[s]) = v(ybar[s], v_aut)` exactly, by
cancellation in the closed-form recursion (on `uinv`'s domain, in the valid
parameter regime). -/
theorem solve_indifference_all_states (p : Params) (hγ : p.gamma ≠ 0)
    (hl0 : 0 < p.lamb) (hl1 : p.lamb < 1)
    (hdomTop : 0 < -p.gamma * ((1 - p.beta) * l1 p (p.ny - 1)))
    (hdom : ∀ s, s + 1 < p.ny → 0 < -p.gamma * uinvArg p s)
    (s : ℕ) (hs : s < p.ny) :
    v p (g1 p s) (l1 p s) = v p (ybar p s) (v_aut p) := by
  rcases lt_or_ge (s + 1) p.ny with h | h
  · have hpi := pi1j_pos p hl0 hl1 (by omega) s
    have hst := stay_eq_exit p s h hγ hpi.ne' (hdom s h)
    rw [hst, v_exit]
  · have hsny : s = p.ny - 1 := by omega
    subst hsny
    rw [stay_top p hγ hdomTop, l1_top]

theorem solve_indifference_all_states_witness :
    v pW (g1 pW 0) (l1 pW 0) = v pW (ybar pW 0) (v_aut pW) :=
  solve_indifference_all_states pW (by norm_num [pW]) (by norm_num [pW])
    (by norm_num [pW])
    (by
      rw [show pW.ny - 1 = 1 from rfl]
      show 0 < -(1 : ℝ) * ((1 - 1/2) * l1 pW 1)
      nlinarith [l1_pW_top_neg])
    (by
      intro s hs
      have hny : pW.ny = 2 := rfl
      have hs0 : s = 0 := by omega
      subst hs0
      rw [uinvArg_pW_zero]
      norm_num [pW])
    0 (by norm_num [pW])

end RMT20
